import Mathlib

/-!
Verification of the KDD20 hands-on tutorial notebooks (DGL large-graph and
distributed training).  The notebooks are shallowly embedded: graphs become
edge lists indexed by edge ID, tensors become lists or functions, the
framework primitives the notebooks call are modelled by executable Lean
functions, and the training-loop state updates become pure folds.
-/

/-- A directed graph in DGL style: the nodes are 0 .. numNodes - 1 and
edges is the list of (source, destination) pairs, indexed by edge ID. -/
structure Graph where
  numNodes : Nat
  edges : List (Nat × Nat)

/-- Well-formedness of a DGL graph: every edge endpoint is a node ID. -/
@[reducible]
def Graph.wf (g : Graph) : Prop :=
  ∀ e ∈ g.edges, e.1 < g.numNodes ∧ e.2 < g.numNodes

/-- In-neighbors of node v: the sources of the edges whose destination is v. -/
def inNeighbors (g : Graph) (v : Nat) : List Nat :=
  (g.edges.filter (fun e => e.2 == v)).map (fun e => e.1)

/-- The in-degree of node v, as computed by g.in_degrees()[v]. -/
def inDegree (g : Graph) (v : Nat) : Nat :=
  (inNeighbors g v).length

/-- Number of parameters of
`def evaluate(emb, label, train_nids, valid_nids, test_nids)` in the
unsupervised-learning notebook; all five are required (none has a default). -/
def evaluateNumParams : Nat := 5

/-- Calling a Python function with positional arguments: when the number of
arguments differs from the number of required parameters, the call raises
TypeError before the function body runs; otherwise the body runs on the
arguments. -/
def pythonCall {α β : Type} (numParams : Nat) (args : List α) (body : List α → β) :
    Except String β :=
  if args.length = numParams then Except.ok (body args) else Except.error "TypeError"

/-- The per-epoch evaluation call of the unsupervised training loop:
`valid_acc, test_acc = evaluate(emb.numpy(), node_labels.numpy())` passes
exactly two arguments to evaluate. -/
def unsupEpochEval {α : Type} (emb labels : α) (body : List α → ℚ × ℚ) :
    Except String (ℚ × ℚ) :=
  pythonCall evaluateNumParams [emb, labels] body

/-- Tail of one epoch of the unsupervised training loop: run the evaluation
call, then update best_accuracy and save the checkpoint iff
best_accuracy < valid_acc.  Returns the new best accuracy and whether the
model was saved this epoch. -/
def unsupEpochTail {α : Type} (emb labels : α) (body : List α → ℚ × ℚ) (best : ℚ) :
    Except String (ℚ × Bool) :=
  (unsupEpochEval emb labels body).bind
    (fun r => Except.ok (if best < r.1 then (r.1, true) else (best, false)))

/-- The node IDs handled by one rank, from create_dataloader in the
multi-GPU notebook:
partition_size = len(nids) // world_size;
partition_offset = partition_size * rank;
nids = nids[partition_offset : partition_offset + partition_size].
The graph argument is only forwarded to NodeDataLoader and does not affect
the slice, so it is omitted here. -/
def create_dataloader_nids {α : Type} (rank world_size : Nat) (nids : List α) : List α :=
  (nids.drop (nids.length / world_size * rank)).take (nids.length / world_size)

/-- Sources returned by NegativeSampler.__call__:
`src, _ = g.find_edges(eids)` maps each edge ID to its source node, and
`src = src.repeat_interleave(self.k)` repeats each entry k times in place. -/
def negSamplerSrc (g : Graph) (k : Nat) (eids : List Nat) : List Nat :=
  (eids.map (fun e => (g.edges.getD e (0, 0)).1)).flatMap (fun s => List.replicate k s)

/-- Possible outputs of NegativeSampler.__call__(g, eids):
`dst = self.weights.multinomial(len(src), replacement=True)` draws len(src)
node IDs with probability proportional to
weights = g.in_degrees().float() ** 0.75, a tensor indexed by the nodes of g;
a node ID is a possible draw exactly when its weight is positive, and
(d : float) ** 0.75 > 0 iff d > 0, so the possible draws are the nodes of
positive in-degree. -/
@[reducible]
def negSamplerPossible (g : Graph) (k : Nat) (eids : List Nat)
    (out : List Nat × List Nat) : Prop :=
  out.1 = negSamplerSrc g k eids ∧ out.2.length = out.1.length ∧
    ∀ d ∈ out.2, d < g.numNodes ∧ 0 < inDegree g d

/-- A two-node graph with the single edge 0 → 1; node 1 has in-degree 1. -/
def cexGraph : Graph := ⟨2, [(0, 1)]⟩

/-- Python dict assignment d[key] = v: overwrite the entry if the key is
already present, otherwise append a new entry. -/
def dictSet {α : Type} (m : List (String × α)) (k : String) (v : α) :
    List (String × α) :=
  if m.any (fun p => p.1 == k) then m.map (fun p => if p.1 == k then (k, v) else p)
  else m ++ [(k, v)]

/-- The keys of a Python dict-like mapping, in order. -/
def dictKeys {α : Type} (m : List (String × α)) : List String :=
  m.map (fun p => p.1)

/-- Effect of the distributed-basics notebook cell `g.ndata['new_data'] = arr`
on the node-data mapping of the DistGraph. -/
def ndataAssignNewData {α : Type} (ndata : List (String × α)) (arr : α) :
    List (String × α) :=
  dictSet ndata "new_data" arr

/-- The node-data mapping of the tutorial DistGraph before the assignment
cell, with the keys the notebook describes (features, labels, the three mask
arrays and orig_id), holding opaque tensor handles numbered 0..5. -/
def productsNdata : List (String × Nat) :=
  [("feat", 0), ("label", 1), ("train_mask", 2), ("val_mask", 3),
   ("test_mask", 4), ("orig_id", 5)]

/-- State of the checkpointing logic shared by the training loops:
best_accuracy, and the epoch whose state dict is currently saved in model.pt
(none before the first save). -/
structure CkptState where
  best : ℚ
  savedEpoch : Option Nat

/-- One epoch's checkpoint update, from the training loops:
`if best_accuracy < accuracy: best_accuracy = accuracy; torch.save(...)`. -/
def ckptStep (st : CkptState) (epoch : Nat) (acc : ℚ) : CkptState :=
  if st.best < acc then ⟨acc, some epoch⟩ else st

/-- Run the checkpoint updates for consecutive epochs starting at e over the
listed validation accuracies. -/
def ckptRunFrom (st : CkptState) (e : Nat) : List ℚ → CkptState
  | [] => st
  | a :: rest => ckptRunFrom (ckptStep st e a) (e + 1) rest

/-- The checkpoint state after running the loop (best_accuracy = 0 and
nothing saved initially) over the validation accuracies of epochs 0, 1, .... -/
def ckptRun (accs : List ℚ) : CkptState :=
  ckptRunFrom ⟨0, none⟩ 0 accs

/-- Pointwise application of one GNN layer that aggregates over all
neighbors: the new representation of node v is a function of v's own input
representation and the list of its in-neighbors' input representations.
With a full-neighbor block (MultiLayerNeighborSampler([None])) this is
exactly layer(block, x) at an output node v. -/
def applyLayer {α : Type} (f : α → List α → α) (g : Graph) (x : Nat → α) :
    Nat → α :=
  fun v => f (x v) ((inNeighbors g v).map x)

/-- SAGE.forward over whole-graph blocks: apply each layer in turn, with
F.relu after every layer except the last (the loop body applies relu when
l != self.n_layers - 1, and the model holds exactly n_layers layers). -/
def sageForward {α : Type} (relu : α → α) (g : Graph) :
    List (α → List α → α) → (Nat → α) → Nat → α
  | [], x => x
  | [f], x => applyLayer f g x
  | f :: f2 :: rest, x =>
      sageForward relu g (f2 :: rest) (fun v => relu (applyLayer f g x v))

/-- Minibatches iterated by NodeDataLoader(graph, torch.arange(n), sampler,
batch_size=bs, shuffle=False, drop_last=False): consecutive chunks of
0 .. n-1 of size bs, the last chunk possibly shorter. -/
def batchesOf (bs n : Nat) : List (List Nat) :=
  (List.range ((n + bs - 1) / bs)).map
    (fun i => List.range' (i * bs) (min bs (n - i * bs)))

/-- Buffer update output_features[output_nodes] = x of the inference loop:
positions in the minibatch take the newly computed value, all other
positions keep the buffer's current value. -/
def writeBatch {α : Type} (vals : Nat → α) (batch : List Nat) (buf : Nat → α) :
    Nat → α :=
  fun v => if v ∈ batch then vals v else buf v

/-- One layer of the inference function: allocate a buffer filled with z
(torch.zeros) for all nodes, then for every minibatch write the layer's
per-node computation vals at the minibatch's output nodes. -/
def inferenceLayer {α : Type} (vals : Nat → α) (z : α)
    (batches : List (List Nat)) : Nat → α :=
  batches.foldl (fun buf batch => writeBatch vals batch buf) (fun _ => z)

/-- The inference function of the unsupervised-learning notebook: compute
representations one layer at a time over all nodes, using a full-neighbor
sampler and minibatches of size bs, applying relu after every layer but the
last (the loop body is identical to the loop body of model.forward), and
feeding each layer's output buffer to the next layer. -/
def inference {α : Type} (relu : α → α) (z : α) (g : Graph) (bs : Nat) :
    List (α → List α → α) → (Nat → α) → Nat → α
  | [], x => x
  | [f], x => inferenceLayer (applyLayer f g x) z (batchesOf bs g.numNodes)
  | f :: f2 :: rest, x =>
      inference relu z g bs (f2 :: rest)
        (inferenceLayer (fun v => relu (applyLayer f g x v)) z
          (batchesOf bs g.numNodes))

/-- Modelled from the spec: dgl.sampling.sample_neighbors is a DGL library
primitive whose implementation is not part of this repository; per the spec,
neighbor sampling selects "a bounded-fanout subset of a node's neighbors per
layer".  It is modelled as taking, for each seed node, the first
min(fanout, in-degree) in-edges of that node. -/
def sample_neighbors (g : Graph) (seeds : List Nat) (fanout : Nat) :
    List (Nat × Nat) :=
  seeds.flatMap (fun v => (g.edges.filter (fun e => e.2 == v)).take fanout)

/-- The customized MultiLayerNeighborSampler of the multi-GPU notebook,
holding the per-layer fanouts passed to __init__. -/
structure MultiLayerNeighborSampler where
  fanouts : List Nat

/-- MultiLayerNeighborSampler.sample_frontier(block_id, g, seed_nodes):
fanout = self.fanouts[block_id];
return dgl.sampling.sample_neighbors(g, seed_nodes, fanout). -/
def MultiLayerNeighborSampler.sample_frontier (s : MultiLayerNeighborSampler)
    (block_id : Nat) (g : Graph) (seed_nodes : List Nat) : List (Nat × Nat) :=
  sample_neighbors g seed_nodes (s.fanouts.getD block_id 0)

/-- A three-node graph with two edges into node 2 and one edge into node 1. -/
def fanGraph : Graph := ⟨3, [(0, 2), (1, 2), (0, 1)]⟩

/-- Modelled from the spec: DistEmbedding is a DGL library primitive whose
implementation is not part of this repository; per the spec it is "a sparse,
shard-distributed lookup table of trainable vectors updated via sparse
gradient steps", and per the notebook, when the embeddings are updated by a
mini-batch, only the embeddings involved in the mini-batch are updated.
The state holds the table rows and the indices looked up with gradient
recording since the last optimizer step. -/
structure DistEmbeddingState (α : Type) where
  rows : Nat → α
  traced : List Nat

/-- Gradient-recording lookup emb(idx): return the rows at the minibatch
indices and record those indices for the next sparse-optimizer step. -/
def distEmbLookup {α : Type} (emb : DistEmbeddingState α) (idx : List Nat) :
    DistEmbeddingState α × List α :=
  ({ emb with traced := emb.traced ++ idx }, idx.map emb.rows)

/-- Modelled from the spec: a sparse-optimizer step (SparseAdagrad.step after
loss.backward()) applies the gradient update upd only to the rows whose
indices were looked up since the last step, then clears the recorded
indices. -/
def sparseOptStep {α : Type} (upd : Nat → α → α) (emb : DistEmbeddingState α) :
    DistEmbeddingState α :=
  ⟨fun i => if i ∈ emb.traced then upd i (emb.rows i) else emb.rows i, []⟩

/-- Example embedding table for the distributed-basics snippet: row i holds
the rational i. -/
def w8rows : Nat → ℚ := fun n => (n : ℚ)

/-- Dot product of two feature vectors. -/
def dotProduct (u v : List ℚ) : ℚ :=
  (List.zipWith (fun a b => a * b) u v).sum

/-- Modelled from the spec: apply_edges is a DGL library primitive whose
implementation is not part of this repository; it computes one message per
edge of the (sub)graph from the data of that edge's incident nodes, in edge
order. -/
def apply_edges {α β : Type} (g : Graph) (msg : α → α → β) (x : Nat → α) :
    List β :=
  g.edges.map (fun e => msg (x e.1) (x e.2))

/-- The dgl.function.u_dot_v message: the dot product of the source and the
destination node data. -/
def u_dot_v (xu xv : List ℚ) : ℚ := dotProduct xu xv

/-- ScorePredictor.forward(subgraph, x): within a local scope, set
subgraph.ndata['x'] = x, run
subgraph.apply_edges(dgl.function.u_dot_v('x', 'x', 'score')), and return
subgraph.edata['score'] — one score per edge of the subgraph. -/
def scorePredictorForward (g : Graph) (x : Nat → List ℚ) : List ℚ :=
  apply_edges g u_dot_v x

/-- Tensor data types named by the notebooks (th.float32 and friends). -/
inductive DType where
  | float32
  | int64

/-- Modelled from the spec: DistTensor is a DGL library primitive whose
implementation is not part of this repository; per the spec its constructor
takes a shape, a dtype and an optional init function, and per the notebook,
by default the created tensor is initialized to 0, while with init_func the
tensor holds the values produced by init_func(shape, dtype).  A tensor is
modelled as a map from multi-indices to values. -/
def distTensorCtor {α : Type} [Zero α] (shape : List Nat) (dtype : DType)
    (init_func : Option (List Nat → DType → List Nat → α)) : List Nat → α :=
  match init_func with
  | none => fun _ => 0
  | some f => f shape dtype

/-- Slicing arr[lo:hi] along the axis of a one-dimensional distributed
tensor: copy the values at indices lo, ..., hi-1 to the local process. -/
def distTensorSlice {α : Type} (t : List Nat → α) (lo hi : Nat) : List α :=
  (List.range' lo (hi - lo)).map (fun j => t [j])

/-- C3: in the unsupervised training loop, evaluate is called with exactly two
arguments (emb.numpy(), node_labels.numpy()) although it is defined with five
required parameters, so every epoch's evaluation step raises a TypeError
before computing any accuracy or saving any checkpoint. -/
theorem C3_evaluate_arity_type_error {α : Type} (emb labels : α)
    (body : List α → ℚ × ℚ) (best : ℚ) :
    unsupEpochTail emb labels body best = Except.error "TypeError" := rfl

/-- C6: create_dataloader assigns rank r the contiguous slice of length
len(nids) / w starting at offset r * (len(nids) / w); the index ranges of
distinct ranks below w are pairwise disjoint, and every position at or beyond
w * (len(nids) / w) — that is, the last len(nids) mod w node IDs — belongs to
no rank's slice. -/
theorem C6_create_dataloader_partition {α : Type} (nids : List α) (w : Nat)
    (hw : 1 ≤ w) :
    (∀ r, r < w →
      (create_dataloader_nids r w nids).length = nids.length / w ∧
      ∀ i, i < nids.length / w →
        (create_dataloader_nids r w nids)[i]? = nids[r * (nids.length / w) + i]?) ∧
    (∀ r1 r2 i1 i2, r1 < w → r2 < w → r1 ≠ r2 →
      i1 < nids.length / w → i2 < nids.length / w →
      r1 * (nids.length / w) + i1 ≠ r2 * (nids.length / w) + i2) ∧
    (∀ p r i, w * (nids.length / w) ≤ p → r < w → i < nids.length / w →
      r * (nids.length / w) + i ≠ p) := by
  set s := nids.length / w with hs
  have hsw : s * w ≤ nids.length := by
    rw [hs]; exact Nat.div_mul_le_self nids.length w
  have key : ∀ r, r < w → s * r + s ≤ nids.length := by
    intro r hr
    have h1 : s * r + s = s * (r + 1) := by ring
    have h2 : s * (r + 1) ≤ s * w := Nat.mul_le_mul_left s hr
    omega
  refine ⟨?_, ?_, ?_⟩
  · intro r hr
    have hk := key r hr
    constructor
    · show ((nids.drop (s * r)).take s).length = s
      rw [List.length_take, List.length_drop]
      omega
    · intro i hi
      show ((nids.drop (s * r)).take s)[i]? = nids[r * s + i]?
      rw [List.getElem?_take, if_pos hi, List.getElem?_drop, Nat.mul_comm s r]
  · intro r1 r2 i1 i2 hr1 hr2 hne hi1 hi2
    rcases Nat.lt_or_gt_of_ne hne with h | h
    · have h1 : r1 + 1 ≤ r2 := h
      have h2 : (r1 + 1) * s ≤ r2 * s := Nat.mul_le_mul_right s h1
      have h3 : r1 * s + i1 < (r1 + 1) * s := by
        have : (r1 + 1) * s = r1 * s + s := by ring
        omega
      omega
    · have h1 : r2 + 1 ≤ r1 := h
      have h2 : (r2 + 1) * s ≤ r1 * s := Nat.mul_le_mul_right s h1
      have h3 : r2 * s + i2 < (r2 + 1) * s := by
        have : (r2 + 1) * s = r2 * s + s := by ring
        omega
      omega
  · intro p r i hp hr hi
    have h1 : r + 1 ≤ w := hr
    have h2 : (r + 1) * s ≤ w * s := Nat.mul_le_mul_right s h1
    have h3 : r * s + i < (r + 1) * s := by
      have : (r + 1) * s = r * s + s := by ring
      omega
    omega

/-- Witness for C6 at a concrete input: five node IDs split across two ranks,
rank 0 holding the first two, positions 4 and beyond assigned to no rank. -/
theorem C6_witness :
    (create_dataloader_nids 0 2 [10, 11, 12, 13, 14]).length = 2 ∧
    (create_dataloader_nids 0 2 [10, 11, 12, 13, 14])[1]? = some 11 := by
  have h := C6_create_dataloader_partition ([10, 11, 12, 13, 14] : List Nat) 2
    (by decide)
  refine ⟨(h.1 0 (by decide)).1, ?_⟩
  have h2 := (h.1 0 (by decide)).2 1 (by decide)
  simpa using h2

/-- Length of the repeated source list: k sources per requested edge ID. -/
theorem negSamplerSrc_length (g : Graph) (k : Nat) (eids : List Nat) :
    (negSamplerSrc g k eids).length = eids.length * k := by
  induction eids with
  | nil => simp [negSamplerSrc]
  | cons e rest ih =>
      simp only [negSamplerSrc, List.map_cons, List.flatMap_cons,
        List.length_append, List.length_replicate, List.length_cons] at ih ⊢
      rw [ih, Nat.succ_mul]
      exact Nat.add_comm k _

/-- C1 counterexample: on the graph with the single edge 0 → 1, the batch
eids = [0] with k = 1 admits the possible output (src, dst) = ([0], [1])
(node 1 is the only node of positive in-degree), and the pair (0, 1) drawn
from it is an existing edge of the graph; so not every returned pair is a
non-existent edge. -/
theorem C1_counterexample :
    negSamplerPossible cexGraph 1 [0] ([0], [1]) ∧
    ¬ (∀ p ∈ List.zip ([0] : List Nat) ([1] : List Nat), p ∉ cexGraph.edges) := by
  decide

/-- C1 amended: every possible output of NegativeSampler.__call__(g, eids) on
valid edge IDs has src listing the source of each requested edge repeated k
times (k * len(eids) entries in total), and dst a list of the same length of
node IDs of positive in-degree; the pairs are not guaranteed to be
non-existent edges of g. -/
theorem C1_negative_sampler_output (g : Graph) (k : Nat) (eids : List Nat)
    (out : List Nat × List Nat)
    (hvalid : ∀ e ∈ eids, e < g.edges.length)
    (hp : negSamplerPossible g k eids out) :
    out.1.length = eids.length * k ∧
    (∀ s ∈ out.1, ∃ e ∈ eids, ∃ pr, g.edges[e]? = some pr ∧ pr ∈ g.edges ∧ s = pr.1) ∧
    out.2.length = out.1.length ∧
    (∀ d ∈ out.2, d < g.numNodes ∧ 0 < inDegree g d) := by
  obtain ⟨h1, h2, h3⟩ := hp
  refine ⟨by rw [h1]; exact negSamplerSrc_length g k eids, ?_, h2, h3⟩
  intro s hs
  rw [h1] at hs
  simp only [negSamplerSrc, List.mem_flatMap, List.mem_map] at hs
  obtain ⟨b, ⟨e, he, hbe⟩, hsb⟩ := hs
  have hse : s = b := List.eq_of_mem_replicate hsb
  refine ⟨e, he, g.edges.getD e (0, 0), ?_, ?_, ?_⟩
  · rw [List.getElem?_eq_getElem (hvalid e he), List.getD_eq_getElem _ _ (hvalid e he)]
  · rw [List.getD_eq_getElem _ _ (hvalid e he)]
    exact List.getElem_mem _
  · rw [hse, ← hbe]

/-- Witness for C1 at a concrete input: the possible output ([0], [1]) on the
one-edge graph satisfies the amended description. -/
theorem C1_witness :
    (([0] : List Nat), ([1] : List Nat)).1.length = [0].length * 1 ∧
    (∀ s ∈ (([0] : List Nat), ([1] : List Nat)).1,
      ∃ e ∈ [0], ∃ pr, cexGraph.edges[e]? = some pr ∧ pr ∈ cexGraph.edges ∧ s = pr.1) ∧
    (([0] : List Nat), ([1] : List Nat)).2.length =
      (([0] : List Nat), ([1] : List Nat)).1.length ∧
    (∀ d ∈ (([0] : List Nat), ([1] : List Nat)).2,
      d < cexGraph.numNodes ∧ 0 < inDegree cexGraph d) :=
  C1_negative_sampler_output cexGraph 1 [0] ([0], [1]) (by decide) (by decide)

/-- C2 counterexample: the distributed-basics notebook cell
`g.ndata['new_data'] = arr` changes the node-data mapping it receives: it adds
the key 'new_data', which was not present before; so not every cell leaves the
distributed graph's node-data mapping unchanged. -/
theorem C2_counterexample :
    ndataAssignNewData productsNdata 6 ≠ productsNdata ∧
    "new_data" ∉ dictKeys productsNdata ∧
    "new_data" ∈ dictKeys (ndataAssignNewData productsNdata 6) := by
  decide

/-- C2 amended: every notebook operation other than the assignment cell only
reads the framework-owned mappings; the one assignment cell
`g.ndata['new_data'] = arr` modifies the node-data mapping exactly by adding
the entry ('new_data', arr): when 'new_data' is not yet a key, the keys after
the cell are the old keys followed by 'new_data', every old entry is
preserved, and the new entry is present. -/
theorem C2_ndata_assignment_effect {α : Type} (ndata : List (String × α)) (arr : α)
    (hnew : "new_data" ∉ dictKeys ndata) :
    dictKeys (ndataAssignNewData ndata arr) = dictKeys ndata ++ ["new_data"] ∧
    (∀ kv ∈ ndata, kv ∈ ndataAssignNewData ndata arr) ∧
    ("new_data", arr) ∈ ndataAssignNewData ndata arr := by
  have hany : ndata.any (fun p => p.1 == "new_data") = false := by
    rw [List.any_eq_false]
    intro p hp hpk
    exact hnew (List.mem_map.mpr ⟨p, hp, by simpa using hpk⟩)
  have hset : ndataAssignNewData ndata arr = ndata ++ [("new_data", arr)] := by
    unfold ndataAssignNewData dictSet
    rw [hany]
    simp
  refine ⟨?_, ?_, ?_⟩
  · rw [hset]; simp [dictKeys]
  · intro kv hkv; rw [hset]; exact List.mem_append_left _ hkv
  · rw [hset]; exact List.mem_append_right _ (by simp)

/-- Witness for C2 at the concrete tutorial mapping: the assignment cell
appends exactly the key 'new_data' and keeps the feature entry. -/
theorem C2_witness :
    dictKeys (ndataAssignNewData productsNdata 6) =
      dictKeys productsNdata ++ ["new_data"] ∧
    ("feat", 0) ∈ ndataAssignNewData productsNdata 6 :=
  ⟨(C2_ndata_assignment_effect productsNdata 6 (by decide)).1,
   (C2_ndata_assignment_effect productsNdata 6 (by decide)).2.1 ("feat", 0) (by decide)⟩

/-- Running the checkpoint loop over appended epochs composes. -/
theorem ckptRunFrom_append (st : CkptState) (e : Nat) (l1 l2 : List ℚ) :
    ckptRunFrom st e (l1 ++ l2) =
      ckptRunFrom (ckptRunFrom st e l1) (e + l1.length) l2 := by
  induction l1 generalizing st e with
  | nil => simp [ckptRunFrom]
  | cons a rest ih =>
      have h0 : ckptRunFrom st e ((a :: rest) ++ l2) =
          ckptRunFrom (ckptStep st e a) (e + 1) (rest ++ l2) := rfl
      have h1 : ckptRunFrom st e (a :: rest) =
          ckptRunFrom (ckptStep st e a) (e + 1) rest := rfl
      rw [h0, ih, h1]
      have hadd : e + 1 + rest.length = e + (a :: rest).length := by
        simp only [List.length_cons]; omega
      rw [hadd]

/-- The checkpoint step never decreases best_accuracy. -/
theorem ckptStep_best_le (st : CkptState) (e : Nat) (a : ℚ) :
    st.best ≤ (ckptStep st e a).best := by
  by_cases h : st.best < a
  · simp only [ckptStep, if_pos h]
    exact le_of_lt h
  · simp only [ckptStep, if_neg h]
    exact le_refl _

/-- The accuracy of an epoch never exceeds best_accuracy after its step. -/
theorem ckptStep_acc_le (st : CkptState) (e : Nat) (a : ℚ) :
    a ≤ (ckptStep st e a).best := by
  by_cases h : st.best < a
  · simp only [ckptStep, if_pos h]
    exact le_refl _
  · simp only [ckptStep, if_neg h]
    exact le_of_not_lt h

/-- Invariant of the checkpoint loop: best_accuracy never decreases, it
dominates every accuracy seen, and either nothing changed or the saved epoch
is one of the epochs run and its accuracy equals the final best_accuracy. -/
theorem ckptRunFrom_invariant (l : List ℚ) (st : CkptState) (e : Nat) :
    st.best ≤ (ckptRunFrom st e l).best ∧
    (∀ j, j < l.length → l.getD j 0 ≤ (ckptRunFrom st e l).best) ∧
    ((ckptRunFrom st e l).savedEpoch = st.savedEpoch ∧
        (ckptRunFrom st e l).best = st.best ∨
      ∃ i, (ckptRunFrom st e l).savedEpoch = some i ∧ e ≤ i ∧ i < e + l.length ∧
        l.getD (i - e) 0 = (ckptRunFrom st e l).best) := by
  induction l generalizing st e with
  | nil =>
      refine ⟨le_refl _, fun j hj => absurd hj (by simp), Or.inl ⟨rfl, rfl⟩⟩
  | cons a rest ih =>
      obtain ⟨ih1, ih2, ih3⟩ := ih (ckptStep st e a) (e + 1)
      have hrun : ckptRunFrom st e (a :: rest) =
          ckptRunFrom (ckptStep st e a) (e + 1) rest := rfl
      rw [hrun]
      refine ⟨le_trans (ckptStep_best_le st e a) ih1, ?_, ?_⟩
      · intro j hj
        cases j with
        | zero =>
            simpa using le_trans (ckptStep_acc_le st e a) ih1
        | succ j2 =>
            simp only [List.getD_cons_succ]
            exact ih2 j2 (by simpa using hj)
      · rcases ih3 with ⟨hse, hsb⟩ | ⟨i, hi1, hi2, hi3, hi4⟩
        · by_cases h : st.best < a
          · refine Or.inr ⟨e, ?_, le_refl e, by simp, ?_⟩
            · rw [hse]; simp [ckptStep, if_pos h]
            · rw [hsb]; simp [ckptStep, if_pos h]
          · refine Or.inl ⟨?_, ?_⟩
            · rw [hse]; simp [ckptStep, if_neg h]
            · rw [hsb]; simp [ckptStep, if_neg h]
        · refine Or.inr ⟨i, hi1, by omega, by simp; omega, ?_⟩
          have hsub : i - e = (i - (e + 1)) + 1 := by omega
          rw [hsub, List.getD_cons_succ]
          exact hi4

/-- An element of a take-prefix agrees with the original list. -/
theorem getD_take_eq {l : List ℚ} {n i : Nat} (h : i < n) (d : ℚ) :
    (l.take n).getD i d = l.getD i d := by
  rw [List.getD_eq_getD_get?, List.getD_eq_getD_get?, List.get?_take h]

/-- Running one more epoch of the checkpoint loop is one checkpoint step. -/
theorem ckptRun_take_succ (accs : List ℚ) (e : Nat) (h : e < accs.length) :
    ckptRun (accs.take (e + 1)) =
      ckptStep (ckptRun (accs.take e)) e (accs.getD e 0) := by
  unfold ckptRun
  rw [List.take_succ]
  have hopt : accs[e]?.toList = [accs.getD e 0] := by
    rw [List.getElem?_eq_getElem h]
    have hgd : accs.getD e 0 = accs[e] := List.getD_eq_getElem accs 0 h
    rw [hgd]
    rfl
  rw [hopt, ckptRunFrom_append]
  have hlen : (accs.take e).length = e := by
    rw [List.length_take]; omega
  rw [hlen]
  simp [ckptRunFrom]

/-- A saved epoch recorded by the checkpoint loop lies among the epochs run. -/
theorem ckptRun_savedEpoch_lt (l : List ℚ) (i : Nat)
    (h : (ckptRun l).savedEpoch = some i) : i < l.length := by
  rcases (ckptRunFrom_invariant l ⟨0, none⟩ 0).2.2 with ⟨h1, _⟩ | ⟨j, hj1, _, hj3, _⟩
  · rw [show ckptRun l = ckptRunFrom ⟨0, none⟩ 0 l from rfl] at h
    rw [h] at h1
    cases h1
  · rw [show ckptRun l = ckptRunFrom ⟨0, none⟩ 0 l from rfl] at h
    rw [h] at hj1
    cases hj1
    omega

/-- C5: in the training loops, best_accuracy is non-decreasing across epochs;
the state dict is saved in epoch e iff that epoch's validation accuracy
strictly exceeds the previous best (equivalently, the loop records e as the
saved epoch right after epoch e); and after any number of epochs, if a
checkpoint has been saved it comes from an epoch whose validation accuracy
equals best_accuracy, which dominates every accuracy seen so far. -/
theorem C5_checkpoint_invariant (accs : List ℚ) :
    (∀ e, (ckptRun (accs.take e)).best ≤ (ckptRun (accs.take (e + 1))).best) ∧
    (∀ e, e < accs.length →
      ((ckptRun (accs.take (e + 1))).savedEpoch = some e ↔
        (ckptRun (accs.take e)).best < accs.getD e 0)) ∧
    (∀ n i, (ckptRun (accs.take n)).savedEpoch = some i →
      i < n ∧ i < accs.length ∧
      accs.getD i 0 = (ckptRun (accs.take n)).best ∧
      ∀ j, j < n → j < accs.length →
        accs.getD j 0 ≤ (ckptRun (accs.take n)).best) := by
  refine ⟨?_, ?_, ?_⟩
  · intro e
    by_cases h : e < accs.length
    · rw [ckptRun_take_succ accs e h]
      exact ckptStep_best_le _ _ _
    · rw [List.take_of_length_le (by omega), List.take_of_length_le (by omega)]
  · intro e he
    rw [ckptRun_take_succ accs e he]
    constructor
    · intro hsave
      by_contra hlt
      have hst : ckptStep (ckptRun (accs.take e)) e (accs.getD e 0) =
          ckptRun (accs.take e) := by
        unfold ckptStep
        rw [if_neg hlt]
      rw [hst] at hsave
      have := ckptRun_savedEpoch_lt (accs.take e) e hsave
      rw [List.length_take] at this
      omega
    · intro hlt
      unfold ckptStep
      rw [if_pos hlt]
  · intro n i hsave
    have hin : i < (accs.take n).length := ckptRun_savedEpoch_lt (accs.take n) i hsave
    rw [List.length_take] at hin
    obtain ⟨-, hdom, hform⟩ := ckptRunFrom_invariant (accs.take n) ⟨0, none⟩ 0
    have hrun : ckptRun (accs.take n) = ckptRunFrom ⟨0, none⟩ 0 (accs.take n) := rfl
    refine ⟨by omega, by omega, ?_, ?_⟩
    · rcases hform with ⟨h1, _⟩ | ⟨j, hj1, _, _, hj4⟩
      · rw [hrun, h1] at hsave
        cases hsave
      · rw [hrun] at hsave
        rw [hsave] at hj1
        cases hj1
        rw [← hrun] at hj4
        rw [← getD_take_eq (show i < n by omega) 0]
        simpa using hj4
    · intro j hj1 hj2
      have := hdom j (by rw [List.length_take]; omega)
      rw [← hrun] at this
      rwa [getD_take_eq hj1 0] at this

/-- Witness for C5 at the concrete accuracy sequence 1/2, 1/4, 3/4: epoch 0
is saved (1/2 exceeds the initial best 0) and after all three epochs the
saved epoch's accuracy equals the running best, which dominates the sequence. -/
theorem C5_witness :
    ((ckptRun ([(1:ℚ)/2, 1/4, 3/4].take (0 + 1))).savedEpoch = some 0 ↔
      (ckptRun ([(1:ℚ)/2, 1/4, 3/4].take 0)).best < [(1:ℚ)/2, 1/4, 3/4].getD 0 0) ∧
    (2 < 3 ∧ 2 < 3 ∧
      [(1:ℚ)/2, 1/4, 3/4].getD 2 0 = (ckptRun ([(1:ℚ)/2, 1/4, 3/4].take 3)).best ∧
      ∀ j, j < 3 → j < ([(1:ℚ)/2, 1/4, 3/4] : List ℚ).length →
        [(1:ℚ)/2, 1/4, 3/4].getD j 0 ≤ (ckptRun ([(1:ℚ)/2, 1/4, 3/4].take 3)).best) := by
  constructor
  · exact (C5_checkpoint_invariant [(1:ℚ)/2, 1/4, 3/4]).2.1 0 (by norm_num)
  · refine (C5_checkpoint_invariant [(1:ℚ)/2, 1/4, 3/4]).2.2 3 2 ?_
    show (ckptRunFrom ⟨0, none⟩ 0 ([(1:ℚ)/2, 1/4, 3/4].take 3)).savedEpoch = some 2
    norm_num [ckptRunFrom, ckptStep]

/-- An in-neighbor relation witness: membership in inNeighbors comes from an
edge of the graph. -/
theorem mem_inNeighbors {g : Graph} {u v : Nat} (h : u ∈ inNeighbors g v) :
    (u, v) ∈ g.edges := by
  simp only [inNeighbors, List.mem_map, List.mem_filter] at h
  obtain ⟨e, ⟨he, hv⟩, hu⟩ := h
  rcases e with ⟨a, b⟩
  simp only [beq_iff_eq] at hv
  subst hv
  subst hu
  exact he

/-- Every node below n lies in one of the NodeDataLoader minibatches. -/
theorem mem_batchesOf {bs n v : Nat} (hbs : 0 < bs) (hv : v < n) :
    ∃ b ∈ batchesOf bs n, v ∈ b := by
  refine ⟨List.range' (v / bs * bs) (min bs (n - v / bs * bs)), ?_, ?_⟩
  · simp only [batchesOf, List.mem_map]
    refine ⟨v / bs, List.mem_range.mpr ?_, rfl⟩
    have h1 : v / bs ≤ (n - 1) / bs := Nat.div_le_div_right (by omega)
    have h2 : (n - 1 + bs) / bs = (n - 1) / bs + 1 := Nat.add_div_right _ hbs
    have h3 : n - 1 + bs = n + bs - 1 := by omega
    calc v / bs ≤ (n - 1) / bs := h1
      _ < (n - 1) / bs + 1 := Nat.lt_succ_self _
      _ = (n - 1 + bs) / bs := h2.symm
      _ = (n + bs - 1) / bs := by rw [h3]
  · rw [List.mem_range']
    have hmod : v % bs < bs := Nat.mod_lt v hbs
    have hdm : bs * (v / bs) + v % bs = v := Nat.div_add_mod v bs
    have hvq : v / bs * bs + v % bs = v := by rw [Nat.mul_comm]; exact hdm
    refine ⟨v % bs, ?_, ?_⟩
    · refine Nat.lt_min.mpr ⟨hmod, ?_⟩
      have h6 : v % bs + v / bs * bs < n := by rw [Nat.add_comm, hvq]; exact hv
      exact Nat.lt_sub_of_add_lt h6
    · rw [Nat.one_mul, hvq]

/-- A node contained in none of the minibatches keeps the buffer value. -/
theorem inferenceFold_not_mem {α : Type} (vals : Nat → α) (batches : List (List Nat))
    (buf : Nat → α) (v : Nat) (h : ∀ b ∈ batches, v ∉ b) :
    batches.foldl (fun b bt => writeBatch vals bt b) buf v = buf v := by
  induction batches generalizing buf with
  | nil => rfl
  | cons bt rest ih =>
      have hbt : v ∉ bt := h bt (by simp)
      have hrest : ∀ b ∈ rest, v ∉ b := fun b hb => h b (by simp [hb])
      rw [List.foldl_cons, ih _ hrest]
      simp [writeBatch, hbt]

/-- A node contained in some minibatch receives the computed value,
whatever the initial buffer holds. -/
theorem inferenceFold_mem {α : Type} (vals : Nat → α) (batches : List (List Nat))
    (buf : Nat → α) (v : Nat) (h : ∃ b ∈ batches, v ∈ b) :
    batches.foldl (fun b bt => writeBatch vals bt b) buf v = vals v := by
  induction batches generalizing buf with
  | nil => simp at h
  | cons bt rest ih =>
      by_cases hr : ∃ b ∈ rest, v ∈ b
      · rw [List.foldl_cons]
        exact ih _ hr
      · have hbt : v ∈ bt := by
          obtain ⟨b, hb, hvb⟩ := h
          rcases List.mem_cons.mp hb with hb1 | hb2
          · rwa [← hb1]
          · exact absurd ⟨b, hb2, hvb⟩ hr
        have hnr : ∀ b ∈ rest, v ∉ b := fun b hb hvb2 => hr ⟨b, hb, hvb2⟩
        rw [List.foldl_cons, inferenceFold_not_mem vals rest _ v hnr]
        simp [writeBatch, hbt]

/-- A node contained in some minibatch ends up with the computed value in
the layer's output buffer. -/
theorem inferenceLayer_mem {α : Type} (vals : Nat → α) (z : α)
    (batches : List (List Nat)) (v : Nat) (h : ∃ b ∈ batches, v ∈ b) :
    inferenceLayer vals z batches v = vals v :=
  inferenceFold_mem vals batches _ v h

/-- Layer application only depends on the input representations of the
nodes of a well-formed graph. -/
theorem applyLayer_congr {α : Type} (f : α → List α → α) (g : Graph)
    (hwf : g.wf) (x1 x2 : Nat → α)
    (hagree : ∀ u, u < g.numNodes → x1 u = x2 u) (v : Nat)
    (hv : v < g.numNodes) : applyLayer f g x1 v = applyLayer f g x2 v := by
  unfold applyLayer
  have hx : x1 v = x2 v := hagree v hv
  have hmap : (inNeighbors g v).map x1 = (inNeighbors g v).map x2 := by
    apply List.map_congr_left
    intro u hu
    exact hagree u (hwf (u, v) (mem_inNeighbors hu)).1
  rw [hx, hmap]

/-- SAGE.forward only depends on the input representations of the nodes of
a well-formed graph. -/
theorem sageForward_congr {α : Type} (relu : α → α) (g : Graph) (hwf : g.wf)
    (layers : List (α → List α → α)) (x1 x2 : Nat → α)
    (hagree : ∀ u, u < g.numNodes → x1 u = x2 u) :
    ∀ v, v < g.numNodes →
      sageForward relu g layers x1 v = sageForward relu g layers x2 v := by
  induction layers generalizing x1 x2 with
  | nil => exact hagree
  | cons f rest ih =>
      cases rest with
      | nil =>
          intro v hv
          exact applyLayer_congr f g hwf x1 x2 hagree v hv
      | cons f2 r2 =>
          intro v hv
          exact ih (fun u => relu (applyLayer f g x1 u))
            (fun u => relu (applyLayer f g x2 u))
            (fun u hu => congrArg relu (applyLayer_congr f g hwf x1 x2 hagree u hu))
            v hv

/-- With full-neighbor sampling, layer-by-layer minibatched inference agrees
with whole-graph forward application on every node, for any batching. -/
theorem inference_eq_sageForward_aux {α : Type} (g : Graph) (hwf : g.wf)
    (relu : α → α) (z : α) (bs : Nat) (hbs : 0 < bs) :
    ∀ (layers : List (α → List α → α)) (x : Nat → α) (v : Nat),
      v < g.numNodes →
      inference relu z g bs layers x v = sageForward relu g layers x v := by
  intro layers
  induction layers with
  | nil => intro x v hv; rfl
  | cons f rest ih =>
      intro x v hv
      cases rest with
      | nil =>
          show inferenceLayer (applyLayer f g x) z (batchesOf bs g.numNodes) v =
            applyLayer f g x v
          exact inferenceLayer_mem _ _ _ _ (mem_batchesOf hbs hv)
      | cons f2 r2 =>
          show inference relu z g bs (f2 :: r2)
              (inferenceLayer (fun u => relu (applyLayer f g x u)) z
                (batchesOf bs g.numNodes)) v =
            sageForward relu g (f2 :: r2) (fun u => relu (applyLayer f g x u)) v
          rw [ih _ v hv]
          exact sageForward_congr relu g hwf (f2 :: r2)
            (inferenceLayer (fun u => relu (applyLayer f g x u)) z
              (batchesOf bs g.numNodes))
            (fun u => relu (applyLayer f g x u))
            (fun u hu => inferenceLayer_mem _ z _ u (mem_batchesOf hbs hu)) v hv

/-- C4: for every model whose layers each aggregate over all in-neighbors,
the inference function — which computes representations one layer at a time
over all nodes using a full-neighbor sampler and minibatches of size bs —
returns on every node of the graph the same final representation as applying
model.forward to the whole graph; in particular the returned representations
do not depend on the batch size. -/
theorem C4_inference_eq_forward {α : Type} (g : Graph) (relu : α → α) (z : α)
    (layers : List (α → List α → α)) (x : Nat → α) (bs bs2 : Nat)
    (hwf : g.wf) (hbs : 0 < bs) (hbs2 : 0 < bs2) (hne : layers ≠ []) :
    (∀ v, v < g.numNodes →
      inference relu z g bs layers x v = sageForward relu g layers x v) ∧
    (∀ v, v < g.numNodes →
      inference relu z g bs layers x v = inference relu z g bs2 layers x v) := by
  have h1 := inference_eq_sageForward_aux g hwf relu z bs hbs layers x
  have h2 := inference_eq_sageForward_aux g hwf relu z bs2 hbs2 layers x
  exact ⟨fun v hv => h1 v hv, fun v hv => (h1 v hv).trans (h2 v hv).symm⟩

/-- Witness for C4 at a concrete input: a two-layer model on the one-edge
graph, where batched inference with batch size 1 agrees with the
whole-graph forward pass at node 1. -/
theorem C4_witness :
    inference (fun q : ℚ => max q 0) 0 cexGraph 1
      [fun a ns => a + ns.sum, fun a _ => a * 2] (fun u => (u : ℚ)) 1 =
    sageForward (fun q : ℚ => max q 0) cexGraph
      [fun a ns => a + ns.sum, fun a _ => a * 2] (fun u => (u : ℚ)) 1 :=
  (C4_inference_eq_forward cexGraph (fun q : ℚ => max q 0) 0
    [fun a ns => a + ns.sum, fun a _ => a * 2] (fun u => (u : ℚ)) 1 2
    (by decide) (by decide) (by decide) (List.cons_ne_nil _ _)).1 1 (by decide)

/-- Every edge of a sampled frontier is an edge of g into a seed node. -/
theorem sample_neighbors_mem {g : Graph} {seeds : List Nat} {fanout : Nat}
    {e : Nat × Nat} (h : e ∈ sample_neighbors g seeds fanout) :
    e ∈ g.edges ∧ e.2 ∈ seeds := by
  simp only [sample_neighbors, List.mem_flatMap] at h
  obtain ⟨v, hv, he⟩ := h
  have h2 := List.mem_of_mem_take he
  have h3 := List.mem_filter.mp h2
  refine ⟨h3.1, ?_⟩
  have h4 : e.2 = v := by simpa using h3.2
  rwa [h4]

/-- Edges into a node outside the seed set never appear in the frontier. -/
theorem sample_neighbors_filter_nil (g : Graph) (seeds : List Nat)
    (fanout : Nat) (v : Nat) (hv : v ∉ seeds) :
    (sample_neighbors g seeds fanout).filter (fun e => e.2 == v) = [] := by
  rw [List.filter_eq_nil_iff]
  intro e he
  have h := (sample_neighbors_mem he).2
  simp only [beq_iff_eq]
  intro h2
  rw [h2] at h
  exact hv h

/-- For each seed node, the frontier holds at most fanout edges into it. -/
theorem sample_neighbors_count (g : Graph) (fanout : Nat) (seeds : List Nat)
    (hnd : seeds.Nodup) : ∀ v ∈ seeds,
      ((sample_neighbors g seeds fanout).filter (fun e => e.2 == v)).length ≤
        fanout := by
  induction seeds with
  | nil => intro v hv; simp at hv
  | cons u rest ih =>
      intro v hv
      have hrun : sample_neighbors g (u :: rest) fanout =
          (g.edges.filter (fun e => e.2 == u)).take fanout ++
            sample_neighbors g rest fanout := rfl
      rw [hrun, List.filter_append, List.length_append]
      rcases List.mem_cons.mp hv with hvu | hvr
      · subst hvu
        have hnr : v ∉ rest := (List.nodup_cons.mp hnd).1
        rw [sample_neighbors_filter_nil g rest fanout v hnr]
        have hle : (((g.edges.filter (fun e => e.2 == v)).take fanout).filter
            (fun e => e.2 == v)).length ≤ fanout :=
          le_trans (List.length_filter_le _ _) (List.length_take_le _ _)
        simpa using hle
      · have hvu : v ≠ u := by
          intro hh
          subst hh
          exact (List.nodup_cons.mp hnd).1 hvr
        have hfirst : ((g.edges.filter (fun e => e.2 == u)).take fanout).filter
            (fun e => e.2 == v) = [] := by
          rw [List.filter_eq_nil_iff]
          intro e he
          have h2 := (List.mem_filter.mp (List.mem_of_mem_take he)).2
          simp only [beq_iff_eq] at h2 ⊢
          rw [h2]
          exact fun hh => hvu hh.symm
        rw [hfirst]
        simpa using ih (List.nodup_cons.mp hnd).2 v hvr

/-- C7: for every layer index i within the fanouts list, graph g and
duplicate-free seed set, the frontier returned by
MultiLayerNeighborSampler.sample_frontier(i, g, seeds) contains for each
seed node at most fanouts[i] edges into that node, and contains only edges
of g whose destination is a seed node, so the per-layer minibatch
computation size is bounded by the fanout. -/
theorem C7_sample_frontier_bounded (s : MultiLayerNeighborSampler) (i : Nat)
    (g : Graph) (seeds : List Nat) (hi : i < s.fanouts.length)
    (hnd : seeds.Nodup) :
    (∀ v ∈ seeds,
      ((s.sample_frontier i g seeds).filter (fun e => e.2 == v)).length ≤
        s.fanouts.getD i 0) ∧
    (∀ e ∈ s.sample_frontier i g seeds, e ∈ g.edges ∧ e.2 ∈ seeds) :=
  ⟨fun v hv => sample_neighbors_count g (s.fanouts.getD i 0) seeds hnd v hv,
   fun _ he => sample_neighbors_mem he⟩

/-- Witness for C7 at a concrete input: with fanouts [1, 2] and layer 0, the
frontier for the single seed node 2 of the three-node graph holds at most
one edge into node 2 even though node 2 has two in-edges. -/
theorem C7_witness :
    ((MultiLayerNeighborSampler.sample_frontier ⟨[1, 2]⟩ 0 fanGraph [2]).filter
      (fun e => e.2 == 2)).length ≤
      (⟨[1, 2]⟩ : MultiLayerNeighborSampler).fanouts.getD 0 0 :=
  (C7_sample_frontier_bounded ⟨[1, 2]⟩ 0 fanGraph [2] (by decide) (by decide)).1
    2 (by decide)

/-- C8: after a gradient-recording minibatch lookup on a fresh distributed
embedding followed by loss.backward() and a sparse-optimizer step, only the
rows whose indices occurred in that minibatch lookup are modified (each by
the optimizer's update); every other row of the table is unchanged. -/
theorem C8_sparse_update_frame {α : Type} (rows : Nat → α) (idx : List Nat)
    (upd : Nat → α → α) (i : Nat) :
    (i ∉ idx →
      (sparseOptStep upd (distEmbLookup ⟨rows, []⟩ idx).1).rows i = rows i) ∧
    (i ∈ idx →
      (sparseOptStep upd (distEmbLookup ⟨rows, []⟩ idx).1).rows i =
        upd i (rows i)) := by
  constructor
  · intro h
    simp [sparseOptStep, distEmbLookup, h]
  · intro h
    simp [sparseOptStep, distEmbLookup, h]

/-- Witness for C8 at the notebook's concrete minibatch [0, 1, 2, 3]: row 7
is untouched by the sparse step while row 2 receives the update. -/
theorem C8_witness :
    (sparseOptStep (fun _ q => q + 1)
      (distEmbLookup ⟨w8rows, []⟩ [0, 1, 2, 3]).1).rows 7 = w8rows 7 :=
  (C8_sparse_update_frame w8rows [0, 1, 2, 3] (fun _ q => q + 1) 7).1 (by decide)

/-- C9: ScorePredictor.forward(subgraph, x) returns one score per edge of
the subgraph, and the score of edge (u, v) is the dot product of x[u] and
x[v], as computed through the apply_edges primitive with the u_dot_v
message. -/
theorem C9_score_predictor (g : Graph) (x : Nat → List ℚ) :
    (scorePredictorForward g x).length = g.edges.length ∧
    ∀ j, j < g.edges.length →
      (scorePredictorForward g x).getD j 0 =
        dotProduct (x (g.edges.getD j (0, 0)).1) (x (g.edges.getD j (0, 0)).2) := by
  constructor
  · simp [scorePredictorForward, apply_edges]
  · intro j hj
    unfold scorePredictorForward apply_edges u_dot_v
    rw [List.getD_eq_getElem _ _ (by simpa using hj), List.getElem_map,
      List.getD_eq_getElem _ _ hj]

/-- Witness for C9 at a concrete input: on the one-edge graph with features
x[v] = [v, 1], the single score is the dot product of the endpoint
features. -/
theorem C9_witness :
    (scorePredictorForward cexGraph (fun v => [(v : ℚ), 1])).getD 0 0 =
      dotProduct ((fun v => [(v : ℚ), 1]) (cexGraph.edges.getD 0 (0, 0)).1)
        ((fun v => [(v : ℚ), 1]) (cexGraph.edges.getD 0 (0, 0)).2) :=
  (C9_score_predictor cexGraph (fun v => [(v : ℚ), 1])).2 0 (by decide)

/-- C10: the distributed-tensor constructor takes a shape, a dtype and an
optional init function; constructed without an init function the tensor is
zero-initialized, so every value read from any slice of it is zero, while
constructed with init_func it holds exactly the values produced by
init_func(shape, dtype). -/
theorem C10_dist_tensor_init {α : Type} [Zero α] (shape : List Nat)
    (dtype : DType) (lo hi : Nat) :
    (∀ q ∈ distTensorSlice
        (distTensorCtor shape dtype
          (none : Option (List Nat → DType → List Nat → α))) lo hi, q = 0) ∧
    (∀ f : List Nat → DType → List Nat → α,
      distTensorCtor shape dtype (some f) = f shape dtype) := by
  constructor
  · intro q hq
    simp only [distTensorSlice, List.mem_map] at hq
    obtain ⟨j, _, hj⟩ := hq
    rw [← hj]
    rfl
  · intro f
    rfl

/-- Witness for C10 at a concrete input: the first value of the 0..3 slice
of a default-constructed length-4 float tensor is zero. -/
theorem C10_witness :
    distTensorCtor [4] DType.float32
      (none : Option (List Nat → DType → List Nat → ℚ)) [0] = 0 :=
  (C10_dist_tensor_init [4] DType.float32 0 3).1
    (distTensorCtor [4] DType.float32
      (none : Option (List Nat → DType → List Nat → ℚ)) [0])
    (by simp [distTensorSlice, distTensorCtor, List.range'])
